import Mathlib

/-!
Verification of the diagramAI core: the layout engine of
`src/hooks/useFlowGenerator.ts` (subtree search, branch-side normalization,
condition-handle assignment, React Flow transformation) and the traversal
simulation engine of `src/hooks/useSimulation.ts`.

Shallow embedding conventions:
  * TypeScript strings are Lean `String`; pixel coordinates are `Int`
    (every operation the code performs on them is addition, subtraction
    and order comparison, so an ordered ring suffices).
  * JS `Set` is `Finset String`; JS `Map` used only through `get`/`set`
    is embedded as a lookup function built by a left fold, so that a
    later `set` on the same key overwrites an earlier one.
  * The dagre call inside `computeLayout` is an external library; its
    output (already converted from center to top-left coordinates) is
    taken as an explicit parameter `rawPos : PosMap`.  Every node id has
    an entry in the `positions` record the code builds, so the position
    map is embedded as a total function `String → Point`; the source's
    `if (!yesRoot || !noRoot) continue` null guard is vacuous on that
    domain.
  * React `setState` calls collapse to a pure state transformer; the
    observable state after a synchronous call is the final value of all
    batched `setState`s.  A `setTimeout` an operation performs is
    returned as `some (delayMs, nodeId)`; `none` means the operation
    scheduled no timer.
-/

/-- A node of the raw flow graph (`FlowNode` in `services/groq.ts`):
id, label and one of the type strings start / end / action / condition. -/
structure FlowNode where
  id : String
  label : String
  type : String
deriving DecidableEq, Repr

/-- An edge of the raw flow graph (`FlowEdge`): `from`, `to` and an
optional label.  `from` is a Lean keyword, hence the fields are named
`fromId` / `toId`. -/
structure FlowEdge where
  fromId : String
  toId : String
  label : Option String
deriving DecidableEq, Repr

/-- The raw flow graph (`FlowGraph`). -/
structure FlowGraph where
  nodes : List FlowNode
  edges : List FlowEdge
deriving DecidableEq, Repr

/-- `LayoutDirection = 'TB' | 'LR'`. -/
inductive LayoutDirection where
  | TB
  | LR
deriving DecidableEq, Repr

/-- A position `{x, y}`. -/
structure Point where
  x : Int
  y : Int
deriving DecidableEq, Repr

/-- The `positions` record: a total map from node id to position. -/
abbrev PosMap := String → Point

/-- `s.toLowerCase()` on the ASCII labels the code compares:
lower-case every character. -/
def lowerStr (s : String) : String :=
  ⟨s.data.map Char.toLower⟩

/-- `edge.label?.toLowerCase()`. -/
def lowerOpt (l : Option String) : Option String :=
  l.map lowerStr

/-- The secondary-axis coordinate: `x` in TB layout, `y` in LR layout. -/
def axisVal (dir : LayoutDirection) (p : Point) : Int :=
  match dir with
  | .TB => p.x
  | .LR => p.y

/-- Replace the secondary-axis coordinate, keeping the other one
(`{ ...positions[id], [axis]: v }`). -/
def setAxis (dir : LayoutDirection) (p : Point) (v : Int) : Point :=
  match dir with
  | .TB => { p with x := v }
  | .LR => { p with y := v }

/-- The finite set of all edge targets of a graph; every id the subtree
search ever enqueues beyond its start id lies in this set.  Used only as
the termination measure of `getSubtreeAux`. -/
def subtreeTargets (g : FlowGraph) : Finset String :=
  (g.edges.map (fun e => e.toId)).toFinset

/-- The loop of `getSubtree`: a worklist search with a FIFO queue
(`queue.shift()` pops the front, successors are pushed at the back) and
a visited set; ids equal to `excludeId` are never visited. -/
def getSubtreeAux (g : FlowGraph) (excludeId : String) :
    List String → Finset String → Finset String
  | [], visited => visited
  | id :: queue, visited =>
    if id ∈ visited ∨ id = excludeId then
      getSubtreeAux g excludeId queue visited
    else
      getSubtreeAux g excludeId
        (queue ++ (g.edges.filter (fun e => e.fromId = id)).map (fun e => e.toId))
        (insert id visited)
termination_by q v =>
  ((subtreeTargets g ∪ q.toFinset) \ v).card * (g.edges.length + 1) + q.length
decreasing_by
  · have hsub : (subtreeTargets g ∪ queue.toFinset) \ visited ⊆
        (subtreeTargets g ∪ (id :: queue).toFinset) \ visited := by
      apply Finset.sdiff_subset_sdiff _ le_rfl
      apply Finset.union_subset_union_right
      intro a ha
      simp only [List.toFinset_cons, Finset.mem_insert]
      exact Or.inr ha
    have hcard := Finset.card_le_card hsub
    have hmul := Nat.mul_le_mul_right (g.edges.length + 1) hcard
    simp only [List.length_cons]
    omega
  · rename_i hnot
    push_neg at hnot
    have hpush : ((g.edges.filter (fun e => e.fromId = id)).map
        (fun e => e.toId)).toFinset ⊆ subtreeTargets g := by
      intro a ha
      simp only [List.mem_toFinset, List.mem_map, List.mem_filter] at ha
      obtain ⟨e, ⟨he, _⟩, rfl⟩ := ha
      simp only [subtreeTargets, List.mem_toFinset, List.mem_map]
      exact ⟨e, he, rfl⟩
    have hset : (subtreeTargets g ∪
          (queue ++ (g.edges.filter (fun e => e.fromId = id)).map
            (fun e => e.toId)).toFinset) \ insert id visited ⊆
        ((subtreeTargets g ∪ (id :: queue).toFinset) \ visited).erase id := by
      intro a ha
      simp only [Finset.mem_sdiff, Finset.mem_union, List.toFinset_append,
        Finset.mem_union, Finset.mem_insert, List.mem_toFinset,
        List.toFinset_cons, Finset.mem_erase] at ha ⊢
      push_neg at ha
      refine ⟨ha.2.1, ?_, ha.2.2⟩
      rcases ha.1 with h | h | h
      · exact Or.inl h
      · exact Or.inr (Or.inr (by simpa using h))
      · exact Or.inl (hpush (by simpa using h))
    have hidmem : id ∈ (subtreeTargets g ∪ (id :: queue).toFinset) \ visited := by
      refine Finset.mem_sdiff.mpr ⟨?_, hnot.1⟩
      exact Finset.mem_union_right _ (by simp)
    have hcard : ((subtreeTargets g ∪
          (queue ++ (g.edges.filter (fun e => e.fromId = id)).map
            (fun e => e.toId)).toFinset) \ insert id visited).card + 1 ≤
        ((subtreeTargets g ∪ (id :: queue).toFinset) \ visited).card := by
      have h1 := Finset.card_le_card hset
      have h2 := Finset.card_erase_of_mem hidmem
      have h3 := Finset.card_pos.mpr ⟨id, hidmem⟩
      omega
    have hpl : ((g.edges.filter (fun e => e.fromId = id)).map
        (fun e => e.toId)).length ≤ g.edges.length := by
      rw [List.length_map]
      exact List.length_filter_le _ _
    have hmul := Nat.mul_le_mul_right (g.edges.length + 1) hcard
    simp only [List.length_cons, List.length_append]
    have hexp : (((subtreeTargets g ∪
          (queue ++ (g.edges.filter (fun e => e.fromId = id)).map
            (fun e => e.toId)).toFinset) \ insert id visited).card + 1) *
        (g.edges.length + 1) =
        ((subtreeTargets g ∪
          (queue ++ (g.edges.filter (fun e => e.fromId = id)).map
            (fun e => e.toId)).toFinset) \ insert id visited).card *
        (g.edges.length + 1) + (g.edges.length + 1) := by ring
    omega

/-- `getSubtree(graph, startId, excludeId)`: all node ids reachable from
`startId` without passing through `excludeId` (lines 77–89 of
`useFlowGenerator.ts`). -/
def getSubtree (g : FlowGraph) (startId excludeId : String) : Finset String :=
  getSubtreeAux g excludeId [startId] ∅

/-- Reachability from `s` to `x` along graph edges on a path every node
of which — the endpoints included — differs from `e`.  This is the
specification `getSubtree` is proved to compute. -/
inductive ReachAvoid (g : FlowGraph) (e : String) : String → String → Prop where
  | refl (s : String) (hs : s ≠ e) : ReachAvoid g e s s
  | tail {s x y : String} (h : ReachAvoid g e s x)
      (hedge : ∃ ed ∈ g.edges, ed.fromId = x ∧ ed.toId = y)
      (hy : y ≠ e) : ReachAvoid g e s y

/-- `yesRoot` is already on the preferred side: in TB the yes root must
have the larger (or equal) x, in LR the smaller (or equal) y
(lines 113–115 of `useFlowGenerator.ts`). -/
def yesIsCorrect (dir : LayoutDirection) (yesRoot noRoot : Point) : Bool :=
  match dir with
  | .TB => decide (noRoot.x ≤ yesRoot.x)
  | .LR => decide (yesRoot.y ≤ noRoot.y)

/-- The body of the `for (const node of graph.nodes)` loop of
`enforceYesOnRight` for one node: skip non-condition nodes and condition
nodes without both a yes- and a no-labeled outgoing edge; if the yes
root is on the wrong side, translate the two branch subtrees (minus
their shared convergence nodes) toward each other by the secondary-axis
gap `delta`.  The in-place record mutation becomes a function update;
the two moved sets are disjoint, so the sequential JS loops and the
simultaneous functional update agree. -/
def enforceStep (g : FlowGraph) (dir : LayoutDirection) (node : FlowNode)
    (positions : PosMap) : PosMap :=
  if node.type = "condition" then
    let outEdges := g.edges.filter (fun e => e.fromId = node.id)
    match outEdges.find? (fun e => lowerOpt e.label = some "yes"),
          outEdges.find? (fun e => lowerOpt e.label = some "no") with
    | some yesEdge, some noEdge =>
      let yesRoot := positions yesEdge.toId
      let noRoot := positions noEdge.toId
      if yesIsCorrect dir yesRoot noRoot then positions
      else
        let yesSub := getSubtree g yesEdge.toId node.id
        let noSub := getSubtree g noEdge.toId node.id
        -- the delete loop removes the intersection from both sets
        let yesMoved := yesSub \ noSub
        let noMoved := noSub \ yesSub
        let delta := axisVal dir noRoot - axisVal dir yesRoot
        fun id =>
          if id ∈ yesMoved then
            setAxis dir (positions id) (axisVal dir (positions id) + delta)
          else if id ∈ noMoved then
            setAxis dir (positions id) (axisVal dir (positions id) - delta)
          else positions id
    | _, _ => positions
  else positions

/-- `enforceYesOnRight(graph, positions, direction)` (lines 94–132):
process every node of the graph in list order. -/
def enforceYesOnRight (g : FlowGraph) (dir : LayoutDirection)
    (positions : PosMap) : PosMap :=
  g.nodes.foldl (fun p n => enforceStep g dir n p) positions

/-- `computeLayout`: dagre produces the raw positions (external library,
taken as the parameter `rawPos`, already footprint-adjusted to top-left
coordinates as in lines 59–67); the function then runs
`enforceYesOnRight` over them and returns the result. -/
def computeLayout (g : FlowGraph) (dir : LayoutDirection)
    (rawPos : PosMap) : PosMap :=
  enforceYesOnRight g dir rawPos

/-- The `from→to` key of the condition-handle map. -/
def edgeKey (e : FlowEdge) : String :=
  e.fromId ++ "→" ++ e.toId

/-- The body of `buildConditionHandleMap`'s loop for one edge: when the
lower-cased label is exactly "yes" or "no", set the edge's `from→to`
key to that label, otherwise leave the map alone. -/
def handleUpd (m : String → Option String) (e : FlowEdge) :
    String → Option String :=
  match lowerOpt e.label with
  | some l =>
    if l = "yes" ∨ l = "no" then
      fun k => if k = edgeKey e then some l else m k
    else m
  | none => m

/-- `buildConditionHandleMap(graph)` of the current
`src/hooks/useFlowGenerator.ts` (lines 137–146): run the loop over all
edges; a later edge with the same key overwrites an earlier one.  The
map consumes no positions: assignment is label-only. -/
def buildConditionHandleMap (g : FlowGraph) : String → Option String :=
  g.edges.foldl handleUpd (fun _ => none)

/-- A React Flow node as built by `transformToReactFlow` (constant
styling fields are not modeled). -/
structure RFNode where
  id : String
  type : String
  position : Point
  label : String
deriving DecidableEq, Repr

/-- A React Flow edge as built by `transformToReactFlow` (constant
styling fields `type`, `animated`, `markerEnd` are not modeled). -/
structure RFEdge where
  id : String
  source : String
  target : String
  label : Option String
  sourceHandle : Option String
deriving DecidableEq, Repr

/-- `transformToReactFlow(graph, direction)` (lines 148–181), with the
dagre output passed as `rawPos`: lay the graph out, build the handle
map, and emit one React Flow node per graph node and one React Flow
edge per graph edge (edge id `e${i}` from the edge's index). -/
def transformToReactFlow (g : FlowGraph) (dir : LayoutDirection)
    (rawPos : PosMap) : List RFNode × List RFEdge :=
  let positions := computeLayout g dir rawPos
  let handleMap := buildConditionHandleMap g
  let nodes : List RFNode := g.nodes.map (fun n =>
    { id := n.id, type := n.type, position := positions n.id, label := n.label })
  let edges : List RFEdge := g.edges.enum.map (fun p =>
    let sourceNode := g.nodes.find? (fun n => n.id = p.2.fromId)
    let sourceHandle :=
      if sourceNode.map (fun n => n.type) = some "condition" then
        handleMap (edgeKey p.2)
      else none
    { id := "e" ++ toString p.1, source := p.2.fromId, target := p.2.toId,
      label := p.2.label, sourceHandle := sourceHandle })
  (nodes, edges)

/-! ## Simulation engine (`src/hooks/useSimulation.ts`) -/

/-- `SimulationStatus` from `SimulationContext.tsx`. -/
inductive SimStatus where
  | idle
  | running
  | paused
  | stopped
  | complete
deriving DecidableEq, Repr

/-- The observable part of `SimulationState`. -/
structure SimState where
  status : SimStatus
  activeNodeId : Option String
  visitedNodeIds : Finset String
  visitedEdgeIds : Finset String
deriving DecidableEq

/-- One entry of the adjacency map (lines 16, 35–39). -/
structure NeighborEntry where
  targetId : String
  edgeId : String
  branch : Option String
deriving DecidableEq, Repr

/-- The `branch` field: the lower-cased visible edge label when it is
"yes" or "no", otherwise undefined (lines 30–34).  The layout anchor
`sourceHandle` is deliberately not consulted. -/
def branchOf (label : Option String) : Option String :=
  match lowerOpt label with
  | some l => if l = "yes" ∨ l = "no" then some l else none
  | none => none

/-- `adjacencyMap.get(nodeId) ?? []`: the entries pushed for the edges
whose source is `nodeId`, in edge-list order (lines 26–40). -/
def adjacencyOf (edges : List RFEdge) (nodeId : String) : List NeighborEntry :=
  (edges.filter (fun e => e.source = nodeId)).map
    (fun e => { targetId := e.target, edgeId := e.id, branch := branchOf e.label })

/-- `nodeTypeMap.get(nodeId) ?? 'action'`; `Map.set` in node-list order
makes the last node with a given id win.  (`node.type ?? 'action'` at
line 21 cannot fire because `transformToReactFlow` always sets a type.) -/
def nodeTypeOf (nodes : List RFNode) (nodeId : String) : String :=
  match (nodes.filter (fun n => n.id = nodeId)).getLast? with
  | some n => n.type
  | none => "action"

/-- `startNodeId`: the last node of type `start` wins (line 23). -/
def startNodeIdOf (nodes : List RFNode) : Option String :=
  ((nodes.filter (fun n => n.type = "start")).getLast?).map (fun n => n.id)

/-- `advance(nodeId)` (lines 60–101).  The intermediate
`setStatus('running')` before the empty-neighbor check is not separately
observable (React batches the synchronous `setState`s); the embedded
state is the batch's final value. -/
def advance (nodes : List RFNode) (edges : List RFEdge) (nodeId : String)
    (s : SimState) : SimState × Option (Nat × String) :=
  let nodeType := nodeTypeOf nodes nodeId
  let s1 : SimState := { s with activeNodeId := some nodeId,
                                visitedNodeIds := insert nodeId s.visitedNodeIds }
  if nodeType = "end" then ({ s1 with status := .complete }, none)
  else if nodeType = "condition" then ({ s1 with status := .paused }, none)
  else
    match adjacencyOf edges nodeId with
    | [] => ({ s1 with status := .complete }, none)
    | next :: _ =>
      ({ s1 with status := .running,
                 visitedEdgeIds := insert next.edgeId s.visitedEdgeIds },
       some (800, next.targetId))

/-- `start()` (lines 108–120): clear the pending timer, reset the
observable state with status `running`, and schedule the first advance
at the start node only when one exists. -/
def start (nodes : List RFNode) (s : SimState) : SimState × Option (Nat × String) :=
  let s1 : SimState := { status := .running, activeNodeId := none,
                         visitedNodeIds := ∅, visitedEdgeIds := ∅ }
  match startNodeIdOf nodes with
  | none => (s1, none)
  | some sid => (s1, some (50, sid))

/-- `reset()` (lines 52–58). -/
def reset (s : SimState) : SimState × Option (Nat × String) :=
  ({ status := .idle, activeNodeId := none,
     visitedNodeIds := ∅, visitedEdgeIds := ∅ }, none)

/-- `pause()` (lines 122–125): cancel the timer, keep everything but the
status. -/
def pause (s : SimState) : SimState × Option (Nat × String) :=
  ({ s with status := .stopped }, none)

/-- `resume()` (lines 127–130): re-advance the active node immediately. -/
def resume (nodes : List RFNode) (edges : List RFEdge)
    (s : SimState) : SimState × Option (Nat × String) :=
  match s.activeNodeId with
  | none => (s, none)
  | some aid => advance nodes edges aid s

/-- `choose(branch)` (lines 132–152). -/
def choose (edges : List RFEdge) (branch : String)
    (s : SimState) : SimState × Option (Nat × String) :=
  if s.status = .paused then
    match s.activeNodeId with
    | none => (s, none)
    | some aid =>
      match (adjacencyOf edges aid).find? (fun n => n.branch = some branch) with
      | none => (s, none)
      | some chosen =>
        ({ s with status := .running,
                  visitedEdgeIds := insert chosen.edgeId s.visitedEdgeIds },
         some (50, chosen.targetId))
  else (s, none)

/-- The non-resetting simulation operations, for stating invariants that
quantify over `advance`, `choose`, `pause` and `resume` at once. -/
inductive SimOp where
  | advanceOp (nodeId : String)
  | chooseOp (branch : String)
  | pauseOp
  | resumeOp
deriving DecidableEq, Repr

/-- Dispatch a `SimOp` to the operation it names. -/
def applyOp (nodes : List RFNode) (edges : List RFEdge) (op : SimOp)
    (s : SimState) : SimState × Option (Nat × String) :=
  match op with
  | .advanceOp n => advance nodes edges n s
  | .chooseOp b => choose edges b s
  | .pauseOp => pause s
  | .resumeOp => resume nodes edges s

/-! ## Concrete fixtures used by counterexamples and witnesses -/

/-- The origin point. -/
def ptZero : Point := ⟨0, 0⟩

/-- A graph rendering with a single condition node and no edges. -/
def condOnlyNodes : List RFNode := [⟨"c", "condition", ptZero, "check"⟩]

/-- A graph rendering with a single action node and no start node. -/
def actionOnlyNodes : List RFNode := [⟨"a", "action", ptZero, "step"⟩]

/-- The idle simulation state. -/
def idleState : SimState := ⟨.idle, none, ∅, ∅⟩

/-- A completed run's state with node a visited. -/
def completeStateA : SimState := ⟨.complete, some "a", {"a"}, ∅⟩

/-- Condition node c with a Yes-edge to a and a no-edge to b. -/
def condEdges : List RFEdge :=
  [⟨"e0", "c", "a", some "Yes", some "yes"⟩,
   ⟨"e1", "c", "b", some "no", some "no"⟩]

/-- Paused at the condition node c. -/
def pausedAtC : SimState := ⟨.paused, some "c", {"c"}, ∅⟩

/-- A raw graph with two condition nodes c1 (yes→a, no→b) and c2
(yes→p, no→q) whose branches interact through the edge q→a. -/
def twoCondGraph : FlowGraph :=
  ⟨[⟨"c1", "check1", "condition"⟩, ⟨"c2", "check2", "condition"⟩,
    ⟨"a", "A", "action"⟩, ⟨"b", "B", "action"⟩,
    ⟨"p", "P", "action"⟩, ⟨"q", "Q", "action"⟩],
   [⟨"c1", "a", some "yes"⟩, ⟨"c1", "b", some "no"⟩,
    ⟨"c2", "p", some "yes"⟩, ⟨"c2", "q", some "no"⟩,
    ⟨"q", "a", none⟩]⟩

/-- Raw positions for `twoCondGraph`: b at x = 5, q at x = 100,
everything else at the origin. -/
def twoCondPos : PosMap := fun id =>
  if id = "b" then ⟨5, 0⟩ else if id = "q" then ⟨100, 0⟩ else ⟨0, 0⟩

/-- A raw graph with a single condition node c (yes→a, no→b). -/
def oneCondGraph : FlowGraph :=
  ⟨[⟨"c", "check", "condition"⟩, ⟨"a", "A", "action"⟩, ⟨"b", "B", "end"⟩],
   [⟨"c", "a", some "yes"⟩, ⟨"c", "b", some "no"⟩]⟩

/-- Every node at the origin. -/
def posZero : PosMap := fun _ => ⟨0, 0⟩

/-- Raw positions for `oneCondGraph` with the yes branch on the wrong
side in TB orientation: a at x = 0, b at x = 5. -/
def oneCondPosWrong : PosMap := fun id =>
  if id = "b" then ⟨5, 0⟩ else ⟨0, 0⟩

/-- A single condition node whose two branches converge on the shared
end node d: c (yes→a, no→b), a→d, b→d. -/
def convergeGraph : FlowGraph :=
  ⟨[⟨"c", "check", "condition"⟩, ⟨"a", "A", "action"⟩,
    ⟨"b", "B", "action"⟩, ⟨"d", "D", "end"⟩],
   [⟨"c", "a", some "yes"⟩, ⟨"c", "b", some "no"⟩,
    ⟨"a", "d", none⟩, ⟨"b", "d", none⟩]⟩

/-- Positions for `convergeGraph`: b at x = 5, the shared node d at
(7, 3), everything else at the origin — so the yes branch starts on the
wrong side in TB orientation. -/
def convergePos : PosMap := fun id =>
  if id = "b" then ⟨5, 0⟩ else if id = "d" then ⟨7, 3⟩ else ⟨0, 0⟩

/-- A condition node whose two outgoing edges both carry the label
"yes". -/
def dupLabelGraph : FlowGraph :=
  ⟨[⟨"c", "check", "condition"⟩, ⟨"a", "A", "end"⟩, ⟨"b", "B", "end"⟩],
   [⟨"c", "a", some "yes"⟩, ⟨"c", "b", some "yes"⟩]⟩

/-- A cyclic graph: start s → action a → action b with a retry edge
b → a and an exit b → t. -/
def cyclicGraph : FlowGraph :=
  ⟨[⟨"s", "S", "start"⟩, ⟨"a", "A", "action"⟩,
    ⟨"b", "B", "action"⟩, ⟨"t", "T", "end"⟩],
   [⟨"s", "a", none⟩, ⟨"a", "b", none⟩,
    ⟨"b", "a", some "retry"⟩, ⟨"b", "t", none⟩]⟩

/-! ## Simulation-engine lemmas -/

/-- An `Option` is `none` or holds exactly one value. -/
theorem option_none_or_some (o : Option String) : o = none ∨ ∃ i, o = some i := by
  cases o with
  | none => exact Or.inl rfl
  | some a => exact Or.inr ⟨a, rfl⟩

/-- `advance` only ever inserts into the two visited sets. -/
theorem advance_monotone (nodes : List RFNode) (edges : List RFEdge)
    (nodeId : String) (s : SimState) :
    s.visitedNodeIds ⊆ (advance nodes edges nodeId s).1.visitedNodeIds ∧
    s.visitedEdgeIds ⊆ (advance nodes edges nodeId s).1.visitedEdgeIds := by
  unfold advance
  by_cases h1 : nodeTypeOf nodes nodeId = "end"
  · simp [h1, Finset.subset_insert]
  · by_cases h2 : nodeTypeOf nodes nodeId = "condition"
    · simp [h1, h2, Finset.subset_insert]
    · cases hadj : adjacencyOf edges nodeId with
      | nil => simp [h1, h2, hadj, Finset.subset_insert]
      | cons nx rest => simp [h1, h2, hadj, Finset.subset_insert]

/-- `advance nodeId` marks `nodeId` active and visited in every branch. -/
theorem advance_sets_active (nodes : List RFNode) (edges : List RFEdge)
    (nodeId : String) (s : SimState) :
    (advance nodes edges nodeId s).1.activeNodeId = some nodeId ∧
    nodeId ∈ (advance nodes edges nodeId s).1.visitedNodeIds := by
  unfold advance
  by_cases h1 : nodeTypeOf nodes nodeId = "end"
  · simp [h1]
  · by_cases h2 : nodeTypeOf nodes nodeId = "condition"
    · simp [h1, h2]
    · cases hadj : adjacencyOf edges nodeId with
      | nil => simp [h1, h2, hadj]
      | cons nx rest => simp [h1, h2, hadj]

/-- The adjacency map reads only `source`, `target`, `id` and `label` of
each edge; rewriting every `sourceHandle` leaves it unchanged. -/
theorem adjacency_ignores_sourceHandle (edges : List RFEdge)
    (f : RFEdge → Option String) (nodeId : String) :
    adjacencyOf (edges.map (fun e => { e with sourceHandle := f e })) nodeId
      = adjacencyOf edges nodeId := by
  induction edges with
  | nil => rfl
  | cons e rest ih =>
    unfold adjacencyOf at ih ⊢
    by_cases h : e.source = nodeId <;> simp [List.filter_cons, h, ih]

/-- **C1 counterexample.** A condition node with zero outgoing edges:
`advance` transitions to `paused`, not `complete`, so the claim's
"regardless of the node's type" is false for the condition type. -/
theorem advance_condition_zero_out_cex :
    adjacencyOf ([] : List RFEdge) "c" = [] ∧
    (advance condOnlyNodes [] "c" idleState).1.status = SimStatus.paused ∧
    (advance condOnlyNodes [] "c" idleState).1.status ≠ SimStatus.complete := by
  decide

/-- **C1 (amended).** For every node whose type is not `condition`
(`start`, `end`, `action`, or an unknown type defaulting to `action`),
zero outgoing edges in the adjacency map make `advance` transition to
`complete` immediately and schedule no timer; a condition node instead
transitions to `paused`. -/
theorem advance_zero_out_nonCondition_complete (nodes : List RFNode)
    (edges : List RFEdge) (nodeId : String) (s : SimState)
    (hty : nodeTypeOf nodes nodeId ≠ "condition")
    (hadj : adjacencyOf edges nodeId = []) :
    (advance nodes edges nodeId s).1.status = SimStatus.complete ∧
    (advance nodes edges nodeId s).2 = none := by
  unfold advance
  by_cases h1 : nodeTypeOf nodes nodeId = "end"
  · simp [h1]
  · simp [h1, hty, hadj]

/-- **C1 witness.** An action node with zero outgoing edges yields
`complete` with no timer. -/
theorem advance_zero_out_nonCondition_complete_witness :
    nodeTypeOf actionOnlyNodes "a" ≠ "condition" ∧
    adjacencyOf ([] : List RFEdge) "a" = [] ∧
    ((advance actionOnlyNodes [] "a" idleState).1.status = SimStatus.complete ∧
      (advance actionOnlyNodes [] "a" idleState).2 = none) :=
  ⟨by decide, by decide,
    advance_zero_out_nonCondition_complete actionOnlyNodes [] "a" idleState
      (by decide) (by decide)⟩

/-- **C3 counterexample.** With no start node in the node list, `start()`
still resets the observable state (status becomes `running`, the visited
sets empty), so it is not a no-op. -/
theorem start_no_start_node_cex :
    startNodeIdOf actionOnlyNodes = none ∧
    (start actionOnlyNodes completeStateA).1 ≠ completeStateA := by
  decide

/-- **C3 (amended).** If the node list has no node of type `start`, then
`start()` resets the observable state to status `running` with no active
node and empty visited sets, and schedules no advance; it is not a no-op
on the observable state. -/
theorem start_no_start_node_resets (nodes : List RFNode) (s : SimState)
    (h : startNodeIdOf nodes = none) :
    (start nodes s).1 = ⟨SimStatus.running, none, ∅, ∅⟩ ∧
    (start nodes s).2 = none := by
  unfold start
  rw [h]
  exact ⟨rfl, rfl⟩

/-- **C3 witness.** -/
theorem start_no_start_node_resets_witness :
    startNodeIdOf actionOnlyNodes = none ∧
    ((start actionOnlyNodes completeStateA).1 = ⟨SimStatus.running, none, ∅, ∅⟩ ∧
      (start actionOnlyNodes completeStateA).2 = none) :=
  ⟨by decide, start_no_start_node_resets actionOnlyNodes completeStateA (by decide)⟩

/-- **C7.** `choose(branch)` is a no-op unless the status is `paused`
and some outgoing edge of the active node has computed branch identity
(derived from the lower-cased visible label) equal to the requested
branch; when a matching edge exists, `choose` marks (exactly) the first
matching edge visited, transitions to `running`, and schedules the
50 ms auto-advance to that edge's target.  The last conjunct shows the
result never depends on the edges' `sourceHandle` anchors.  `choose` is
a total function, so it cannot throw. -/
theorem choose_spec (edges : List RFEdge) (branch : String) (s : SimState) :
    (¬ (s.status = SimStatus.paused ∧ ∃ a, s.activeNodeId = some a ∧
          ∃ n ∈ adjacencyOf edges a, n.branch = some branch) →
        choose edges branch s = (s, none)) ∧
    (∀ a chosen, s.status = SimStatus.paused → s.activeNodeId = some a →
        (adjacencyOf edges a).find? (fun n => n.branch = some branch) = some chosen →
        choose edges branch s =
          ({ s with status := SimStatus.running,
                    visitedEdgeIds := insert chosen.edgeId s.visitedEdgeIds },
           some (50, chosen.targetId))) ∧
    (∀ f : RFEdge → Option String,
        choose (edges.map (fun e => { e with sourceHandle := f e })) branch s =
        choose edges branch s) := by
  refine ⟨?_, ?_, ?_⟩
  · intro hno
    unfold choose
    by_cases hst : s.status = SimStatus.paused
    · cases ha : s.activeNodeId with
      | none => simp [hst, ha]
      | some a =>
        have hfind : (adjacencyOf edges a).find?
            (fun n => n.branch = some branch) = none := by
          rw [List.find?_eq_none]
          intro n hn hb
          simp only [decide_eq_true_eq] at hb
          exact hno ⟨hst, a, ha, n, hn, hb⟩
        simp [hst, ha, hfind]
    · simp [hst]
  · intro a chosen hst ha hfind
    unfold choose
    simp [hst, ha, hfind]
  · intro f
    unfold choose
    by_cases hst : s.status = SimStatus.paused
    · cases ha : s.activeNodeId with
      | none => simp [hst, ha]
      | some a => simp [hst, ha, adjacency_ignores_sourceHandle]
    · simp [hst]

/-- **C7 witness.** At the paused condition node, choosing "yes" marks
edge e0 visited and schedules the advance to node a — even though the
matching edge's label is "Yes" with a capital Y. -/
theorem choose_spec_witness :
    choose condEdges "yes" pausedAtC =
      ({ pausedAtC with status := SimStatus.running,
                        visitedEdgeIds := insert "e0" pausedAtC.visitedEdgeIds },
       some (50, "a")) :=
  (choose_spec condEdges "yes" pausedAtC).2.1 "c" ⟨"a", "e0", some "yes"⟩
    rfl rfl (by decide)

/-- **C8.** Every observable state stores `activeNodeId` as `null` or a
single node id, and the operations other than `reset`/`start`
(`advance`, `choose`, `pause`, `resume`) only grow the two visited
sets. -/
theorem sim_ops_monotone_single_active (nodes : List RFNode)
    (edges : List RFEdge) (op : SimOp) (s : SimState) :
    s.visitedNodeIds ⊆ (applyOp nodes edges op s).1.visitedNodeIds ∧
    s.visitedEdgeIds ⊆ (applyOp nodes edges op s).1.visitedEdgeIds ∧
    ((applyOp nodes edges op s).1.activeNodeId = none ∨
      ∃ i, (applyOp nodes edges op s).1.activeNodeId = some i) := by
  refine ⟨?_, ?_, option_none_or_some _⟩ <;>
  · cases op with
    | advanceOp n =>
      first
      | exact (advance_monotone nodes edges n s).1
      | exact (advance_monotone nodes edges n s).2
    | chooseOp b =>
      unfold applyOp choose
      by_cases hst : s.status = SimStatus.paused
      · cases ha : s.activeNodeId with
        | none => simp [hst, ha]
        | some a =>
          cases hfind : (adjacencyOf edges a).find?
              (fun n => n.branch = some b) with
          | none => simp [hst, ha, hfind]
          | some chosen => simp [hst, ha, hfind, Finset.subset_insert]
      · simp [hst]
    | pauseOp => simp [applyOp, pause]
    | resumeOp =>
      unfold applyOp resume
      cases ha : s.activeNodeId with
      | none => simp
      | some a =>
        first
        | exact (advance_monotone nodes edges a s).1
        | exact (advance_monotone nodes edges a s).2

/-- **C10.** When `choose` succeeds, the only synchronous changes are
the status becoming `running` and the chosen edge entering
`visitedEdgeIds`; the active node, the visited-node set and every other
edge's visited status are untouched, the 50 ms advance to the chosen
target is scheduled, and only that later `advance` call makes the
target active and visited. -/
theorem choose_sync_frame (nodes : List RFNode) (edges : List RFEdge)
    (branch : String) (s : SimState) (a : String) (chosen : NeighborEntry)
    (hst : s.status = SimStatus.paused) (ha : s.activeNodeId = some a)
    (hfind : (adjacencyOf edges a).find?
      (fun n => n.branch = some branch) = some chosen) :
    (choose edges branch s).1.status = SimStatus.running ∧
    (choose edges branch s).1.activeNodeId = s.activeNodeId ∧
    (choose edges branch s).1.visitedNodeIds = s.visitedNodeIds ∧
    (choose edges branch s).1.visitedEdgeIds
      = insert chosen.edgeId s.visitedEdgeIds ∧
    (∀ eid, eid ≠ chosen.edgeId →
      (eid ∈ (choose edges branch s).1.visitedEdgeIds ↔
        eid ∈ s.visitedEdgeIds)) ∧
    (choose edges branch s).2 = some (50, chosen.targetId) ∧
    (advance nodes edges chosen.targetId
      (choose edges branch s).1).1.activeNodeId = some chosen.targetId ∧
    chosen.targetId ∈ (advance nodes edges chosen.targetId
      (choose edges branch s).1).1.visitedNodeIds := by
  have hch : choose edges branch s =
      ({ s with status := SimStatus.running,
                visitedEdgeIds := insert chosen.edgeId s.visitedEdgeIds },
       some (50, chosen.targetId)) := by
    unfold choose
    simp [hst, ha, hfind]
  rw [hch]
  refine ⟨rfl, rfl, rfl, rfl, ?_, rfl, ?_, ?_⟩
  · intro eid hne
    simp [Finset.mem_insert, hne]
  · exact (advance_sets_active nodes edges chosen.targetId _).1
  · exact (advance_sets_active nodes edges chosen.targetId _).2

/-- **C10 witness.** -/
theorem choose_sync_frame_witness :
    (choose condEdges "no" pausedAtC).1.visitedNodeIds
        = pausedAtC.visitedNodeIds ∧
    (choose condEdges "no" pausedAtC).1.activeNodeId
        = pausedAtC.activeNodeId ∧
    (choose condEdges "no" pausedAtC).2 = some (50, "b") :=
  ⟨(choose_sync_frame condOnlyNodes condEdges "no" pausedAtC "c"
      ⟨"b", "e1", some "no"⟩ rfl rfl (by decide)).2.2.1,
   (choose_sync_frame condOnlyNodes condEdges "no" pausedAtC "c"
      ⟨"b", "e1", some "no"⟩ rfl rfl (by decide)).2.1,
   (choose_sync_frame condOnlyNodes condEdges "no" pausedAtC "c"
      ⟨"b", "e1", some "no"⟩ rfl rfl (by decide)).2.2.2.2.2.1⟩

/-! ## Subtree-search theory: `getSubtree` computes reachability -/

/-- The source of a `ReachAvoid` path differs from the avoided id. -/
theorem ReachAvoid.src_ne {g : FlowGraph} {e s x : String}
    (h : ReachAvoid g e s x) : s ≠ e := by
  induction h with
  | refl hs => exact hs
  | tail h hedge hy ih => exact ih

/-- The destination of a `ReachAvoid` path differs from the avoided id. -/
theorem ReachAvoid.dst_ne {g : FlowGraph} {e s x : String}
    (h : ReachAvoid g e s x) : x ≠ e := by
  induction h with
  | refl hs => exact hs
  | tail h hedge hy ih => exact hy

/-- `ReachAvoid` composes. -/
theorem ReachAvoid.trans {g : FlowGraph} {e a b c : String}
    (h1 : ReachAvoid g e a b) (h2 : ReachAvoid g e b c) :
    ReachAvoid g e a c := by
  induction h2 with
  | refl hbc => exact h1
  | tail h hedge hy ih => exact .tail ih hedge hy

/-- The search result contains the visited set it started from. -/
theorem getSubtreeAux_mono (g : FlowGraph) (ex : String) (q : List String)
    (v : Finset String) : v ⊆ getSubtreeAux g ex q v := by
  induction q, v using getSubtreeAux.induct g ex with
  | case1 v => rw [getSubtreeAux]
  | case2 id queue visited h ih =>
    rw [getSubtreeAux]
    simp only [h, if_pos]
    exact ih
  | case3 id queue visited h ih =>
    rw [getSubtreeAux]
    simp only [h, if_neg, not_false_iff]
    exact (Finset.subset_insert id visited).trans ih

/-- Every queued id other than the excluded one ends up in the result. -/
theorem getSubtreeAux_queue_mem (g : FlowGraph) (ex : String) (q : List String)
    (v : Finset String) (x : String) :
    x ∈ q → x ≠ ex → x ∈ getSubtreeAux g ex q v := by
  induction q, v using getSubtreeAux.induct g ex with
  | case1 v =>
    intro hx _
    simp at hx
  | case2 id queue visited h ih =>
    intro hx hne
    rw [getSubtreeAux]
    simp only [h, if_pos]
    rcases List.mem_cons.mp hx with rfl | hx2
    · rcases h with hv | he
      · exact getSubtreeAux_mono g ex queue visited hv
      · exact absurd he hne
    · exact ih hx2 hne
  | case3 id queue visited h ih =>
    intro hx hne
    rw [getSubtreeAux]
    simp only [h, if_neg, not_false_iff]
    rcases List.mem_cons.mp hx with rfl | hx2
    · exact getSubtreeAux_mono g ex _ _ (Finset.mem_insert_self x visited)
    · exact ih (List.mem_append_left _ hx2) hne

/-- The search result is closed under following edges, provided the
visited set it started from was closed up to the queue. -/
theorem getSubtreeAux_closed (g : FlowGraph) (ex : String) (q : List String)
    (v : Finset String) :
    (∀ a ∈ v, ∀ ed ∈ g.edges, ed.fromId = a →
        ed.toId = ex ∨ ed.toId ∈ v ∨ ed.toId ∈ q) →
    ∀ a ∈ getSubtreeAux g ex q v, ∀ ed ∈ g.edges, ed.fromId = a →
        ed.toId = ex ∨ ed.toId ∈ getSubtreeAux g ex q v := by
  induction q, v using getSubtreeAux.induct g ex with
  | case1 v =>
    intro hinv a ha ed hed hfrom
    rw [getSubtreeAux] at ha ⊢
    rcases hinv a ha ed hed hfrom with h1 | h1 | h1
    · exact Or.inl h1
    · exact Or.inr h1
    · simp at h1
  | case2 id queue visited h ih =>
    intro hinv
    rw [getSubtreeAux]
    simp only [h, if_pos]
    apply ih
    intro a ha ed hed hfrom
    rcases hinv a ha ed hed hfrom with h1 | h1 | h1
    · exact Or.inl h1
    · exact Or.inr (Or.inl h1)
    · rcases List.mem_cons.mp h1 with heq | h2
      · rcases h with hv | he
        · exact Or.inr (Or.inl (heq ▸ hv))
        · exact Or.inl (heq.trans he)
      · exact Or.inr (Or.inr h2)
  | case3 id queue visited h ih =>
    intro hinv
    rw [getSubtreeAux]
    simp only [h, if_neg, not_false_iff]
    apply ih
    intro a ha ed hed hfrom
    rcases Finset.mem_insert.mp ha with rfl | hav
    · refine Or.inr (Or.inr (List.mem_append_right _ ?_))
      simp only [List.mem_map, List.mem_filter]
      exact ⟨ed, ⟨hed, by simp [hfrom]⟩, rfl⟩
    · rcases hinv a hav ed hed hfrom with h1 | h1 | h1
      · exact Or.inl h1
      · exact Or.inr (Or.inl (Finset.mem_insert_of_mem h1))
      · rcases List.mem_cons.mp h1 with heq | h2
        · exact Or.inr (Or.inl (heq ▸ Finset.mem_insert_self _ _))
        · exact Or.inr (Or.inr (List.mem_append_left _ h2))

/-- Soundness: every `ReachAvoid`-reachable node is found by
`getSubtree`. -/
theorem ReachAvoid.mem_getSubtree {g : FlowGraph} {e s x : String}
    (h : ReachAvoid g e s x) : x ∈ getSubtree g s e := by
  induction h with
  | refl hs =>
    exact getSubtreeAux_queue_mem g e _ ∅ _ (List.mem_cons_self _ _) hs
  | tail h hedge hy ih =>
    obtain ⟨ed, hed, hfrom, hto⟩ := hedge
    have hclosed := getSubtreeAux_closed g e [s] ∅
      (by intro a ha; exact absurd ha (Finset.not_mem_empty a))
    rcases hclosed _ ih ed hed hfrom with h1 | h1
    · exact absurd (hto ▸ h1) hy
    · exact hto ▸ h1

/-- Completeness: everything the search finds is in the initial visited
set or `ReachAvoid`-reachable from some queued id. -/
theorem getSubtreeAux_complete (g : FlowGraph) (ex : String) (q : List String)
    (v : Finset String) :
    ∀ x ∈ getSubtreeAux g ex q v, x ∈ v ∨ ∃ s ∈ q, ReachAvoid g ex s x := by
  induction q, v using getSubtreeAux.induct g ex with
  | case1 v =>
    intro x hx
    rw [getSubtreeAux] at hx
    exact Or.inl hx
  | case2 id queue visited h ih =>
    intro x hx
    rw [getSubtreeAux] at hx
    simp only [h, if_pos] at hx
    rcases ih x hx with h1 | ⟨s, hs, hr⟩
    · exact Or.inl h1
    · exact Or.inr ⟨s, List.mem_cons_of_mem _ hs, hr⟩
  | case3 id queue visited h ih =>
    intro x hx
    rw [getSubtreeAux] at hx
    simp only [h, if_neg, not_false_iff] at hx
    push_neg at h
    rcases ih x hx with h1 | ⟨s, hs, hr⟩
    · rcases Finset.mem_insert.mp h1 with rfl | h2
      · exact Or.inr ⟨x, List.mem_cons_self x queue, .refl x h.2⟩
      · exact Or.inl h2
    · rcases List.mem_append.mp hs with h2 | h2
      · exact Or.inr ⟨s, List.mem_cons_of_mem _ h2, hr⟩
      · simp only [List.mem_map, List.mem_filter] at h2
        obtain ⟨ed, ⟨hed, hfrom⟩, hto⟩ := h2
        refine Or.inr ⟨id, List.mem_cons_self id queue, ?_⟩
        have hstep : ReachAvoid g ex id s :=
          .tail (.refl id h.2) ⟨ed, hed, by simpa using hfrom, hto⟩ hr.src_ne
        exact hstep.trans hr

/-- The characterization: `getSubtree g s e` holds the ids reachable
from `s` along paths avoiding `e`. -/
theorem mem_getSubtree_iff (g : FlowGraph) (s ex x : String) :
    x ∈ getSubtree g s ex ↔ ReachAvoid g ex s x := by
  constructor
  · intro hx
    rcases getSubtreeAux_complete g ex [s] ∅ x hx with h | ⟨s2, hs2, hr⟩
    · exact absurd h (Finset.not_mem_empty x)
    · have : s2 = s := by simpa using hs2
      exact this ▸ hr
  · exact fun h => h.mem_getSubtree

/-- The excluded id never lies in a subtree. -/
theorem getSubtree_not_mem_exclude (g : FlowGraph) (s ex x : String)
    (hx : x ∈ getSubtree g s ex) : x ≠ ex :=
  ((mem_getSubtree_iff g s ex x).mp hx).dst_ne

/-- The start id belongs to its own subtree when it is not excluded. -/
theorem getSubtree_self_mem (g : FlowGraph) (s ex : String) (h : s ≠ ex) :
    s ∈ getSubtree g s ex :=
  (mem_getSubtree_iff g s ex s).mpr (.refl s h)

/-- Searching from the excluded id finds nothing. -/
theorem getSubtree_exclude_self (g : FlowGraph) (ex : String) :
    getSubtree g ex ex = ∅ := by
  rw [getSubtree, getSubtreeAux]
  simp [getSubtreeAux]

/-- Subtrees of members are contained in the subtree. -/
theorem getSubtree_trans_subset (g : FlowGraph) (s ex y : String)
    (hy : y ∈ getSubtree g s ex) :
    getSubtree g y ex ⊆ getSubtree g s ex := by
  intro x hx
  exact (mem_getSubtree_iff g s ex x).mpr
    (((mem_getSubtree_iff g s ex y).mp hy).trans
      ((mem_getSubtree_iff g y ex x).mp hx))

/-! ## Branch-side normalization: step lemmas -/

/-- `axisVal` reads back what `setAxis` wrote. -/
theorem axisVal_setAxis (dir : LayoutDirection) (p : Point) (v : Int) :
    axisVal dir (setAxis dir p v) = v := by
  cases dir <;> rfl

/-- Equal secondary-axis coordinates count as the correct side in both
orientations (the comparison is non-strict). -/
theorem yesIsCorrect_of_axis_eq (dir : LayoutDirection) (a b : Point)
    (h : axisVal dir a = axisVal dir b) : yesIsCorrect dir a b = true := by
  cases dir <;> simp [yesIsCorrect, axisVal] at h ⊢ <;> omega

/-- Swapping the two roots of a wrong-sided pair lands on the correct
side, in both orientations. -/
theorem yesIsCorrect_of_swap (dir : LayoutDirection) (yr nr a b : Point)
    (hfalse : yesIsCorrect dir yr nr = false)
    (ha : axisVal dir a = axisVal dir nr) (hb : axisVal dir b = axisVal dir yr) :
    yesIsCorrect dir a b = true := by
  cases dir <;> simp [yesIsCorrect, axisVal] at hfalse ha hb ⊢ <;> omega

/-- A non-condition node's step leaves the positions untouched. -/
theorem enforceStep_nonCondition (g : FlowGraph) (dir : LayoutDirection)
    (node : FlowNode) (p : PosMap) (hty : node.type ≠ "condition") :
    enforceStep g dir node p = p := by
  simp [enforceStep, hty]

/-- Pointwise description of an applied (wrong-sided) step. -/
theorem enforceStep_wrong_apply (g : FlowGraph) (dir : LayoutDirection)
    (node : FlowNode) (p : PosMap) (yesEdge noEdge : FlowEdge)
    (hty : node.type = "condition")
    (hyes : (g.edges.filter (fun e => e.fromId = node.id)).find?
      (fun e => lowerOpt e.label = some "yes") = some yesEdge)
    (hno : (g.edges.filter (fun e => e.fromId = node.id)).find?
      (fun e => lowerOpt e.label = some "no") = some noEdge)
    (hcorr : yesIsCorrect dir (p yesEdge.toId) (p noEdge.toId) = false)
    (i : String) :
    enforceStep g dir node p i =
      (if i ∈ getSubtree g yesEdge.toId node.id \ getSubtree g noEdge.toId node.id
       then setAxis dir (p i) (axisVal dir (p i) +
         (axisVal dir (p noEdge.toId) - axisVal dir (p yesEdge.toId)))
       else if i ∈ getSubtree g noEdge.toId node.id \ getSubtree g yesEdge.toId node.id
       then setAxis dir (p i) (axisVal dir (p i) -
         (axisVal dir (p noEdge.toId) - axisVal dir (p yesEdge.toId)))
       else p i) := by
  simp [enforceStep, hty, hyes, hno, hcorr]

/-- After one wrong-sided step, either the yes root sits (weakly) on the
preferred side, or the two branch roots are mutually reachable (each in
the other's subtree), in which case the two subtrees coincide and the
step moved nothing. -/
theorem enforceStep_correct_or_frozen (g : FlowGraph) (dir : LayoutDirection)
    (node : FlowNode) (p : PosMap) (yesEdge noEdge : FlowEdge)
    (hty : node.type = "condition")
    (hyes : (g.edges.filter (fun e => e.fromId = node.id)).find?
      (fun e => lowerOpt e.label = some "yes") = some yesEdge)
    (hno : (g.edges.filter (fun e => e.fromId = node.id)).find?
      (fun e => lowerOpt e.label = some "no") = some noEdge)
    (hcorr : yesIsCorrect dir (p yesEdge.toId) (p noEdge.toId) = false) :
    yesIsCorrect dir (enforceStep g dir node p yesEdge.toId)
        (enforceStep g dir node p noEdge.toId) = true ∨
      ((yesEdge.toId ∈ getSubtree g noEdge.toId node.id ∧
        noEdge.toId ∈ getSubtree g yesEdge.toId node.id) ∧
       getSubtree g yesEdge.toId node.id = getSubtree g noEdge.toId node.id) := by
  have hroot_y : yesEdge.toId ∉
      getSubtree g noEdge.toId node.id \ getSubtree g yesEdge.toId node.id := by
    intro hmem
    rcases Finset.mem_sdiff.mp hmem with ⟨hin, hout⟩
    exact hout (getSubtree_self_mem g _ _ (getSubtree_not_mem_exclude g _ _ _ hin))
  have hroot_n : noEdge.toId ∉
      getSubtree g yesEdge.toId node.id \ getSubtree g noEdge.toId node.id := by
    intro hmem
    rcases Finset.mem_sdiff.mp hmem with ⟨hin, hout⟩
    exact hout (getSubtree_self_mem g _ _ (getSubtree_not_mem_exclude g _ _ _ hin))
  by_cases hyT : yesEdge.toId ∈
      getSubtree g yesEdge.toId node.id \ getSubtree g noEdge.toId node.id
  · have hqy : enforceStep g dir node p yesEdge.toId =
        setAxis dir (p yesEdge.toId) (axisVal dir (p yesEdge.toId) +
          (axisVal dir (p noEdge.toId) - axisVal dir (p yesEdge.toId))) := by
      rw [enforceStep_wrong_apply g dir node p yesEdge noEdge hty hyes hno hcorr,
        if_pos hyT]
    by_cases hnT : noEdge.toId ∈
        getSubtree g noEdge.toId node.id \ getSubtree g yesEdge.toId node.id
    · have hqn : enforceStep g dir node p noEdge.toId =
          setAxis dir (p noEdge.toId) (axisVal dir (p noEdge.toId) -
            (axisVal dir (p noEdge.toId) - axisVal dir (p yesEdge.toId))) := by
        rw [enforceStep_wrong_apply g dir node p yesEdge noEdge hty hyes hno hcorr,
          if_neg hroot_n, if_pos hnT]
      left
      apply yesIsCorrect_of_swap dir (p yesEdge.toId) (p noEdge.toId) _ _ hcorr
      · rw [hqy, axisVal_setAxis]; ring
      · rw [hqn, axisVal_setAxis]; ring
    · have hqn : enforceStep g dir node p noEdge.toId = p noEdge.toId := by
        rw [enforceStep_wrong_apply g dir node p yesEdge noEdge hty hyes hno hcorr,
          if_neg hroot_n, if_neg hnT]
      left
      apply yesIsCorrect_of_axis_eq
      rw [hqy, hqn, axisVal_setAxis]; ring
  · have hqy : enforceStep g dir node p yesEdge.toId = p yesEdge.toId := by
      rw [enforceStep_wrong_apply g dir node p yesEdge noEdge hty hyes hno hcorr,
        if_neg hyT, if_neg hroot_y]
    by_cases hnT : noEdge.toId ∈
        getSubtree g noEdge.toId node.id \ getSubtree g yesEdge.toId node.id
    · have hqn : enforceStep g dir node p noEdge.toId =
          setAxis dir (p noEdge.toId) (axisVal dir (p noEdge.toId) -
            (axisVal dir (p noEdge.toId) - axisVal dir (p yesEdge.toId))) := by
        rw [enforceStep_wrong_apply g dir node p yesEdge noEdge hty hyes hno hcorr,
          if_neg hroot_n, if_pos hnT]
      left
      apply yesIsCorrect_of_axis_eq
      rw [hqy, hqn, axisVal_setAxis]; ring
    · right
      by_cases hyid : yesEdge.toId = node.id
      · have hYe : getSubtree g yesEdge.toId node.id = ∅ := by
          rw [hyid]; exact getSubtree_exclude_self g node.id
        by_cases hnid : noEdge.toId = node.id
        · exfalso
          have hax : yesIsCorrect dir (p yesEdge.toId) (p noEdge.toId) = true := by
            apply yesIsCorrect_of_axis_eq
            rw [hyid, hnid]
          rw [hax] at hcorr
          cases hcorr
        · exfalso
          have hnN : noEdge.toId ∈ getSubtree g noEdge.toId node.id :=
            getSubtree_self_mem g _ _ hnid
          have hnY : noEdge.toId ∈ getSubtree g yesEdge.toId node.id := by
            by_contra hcon
            exact hnT (Finset.mem_sdiff.mpr ⟨hnN, hcon⟩)
          rw [hYe] at hnY
          exact absurd hnY (Finset.not_mem_empty _)
      · have hyY : yesEdge.toId ∈ getSubtree g yesEdge.toId node.id :=
          getSubtree_self_mem g _ _ hyid
        have hyN : yesEdge.toId ∈ getSubtree g noEdge.toId node.id := by
          by_contra hcon
          exact hyT (Finset.mem_sdiff.mpr ⟨hyY, hcon⟩)
        by_cases hnid : noEdge.toId = node.id
        · exfalso
          have hNe : getSubtree g noEdge.toId node.id = ∅ := by
            rw [hnid]; exact getSubtree_exclude_self g node.id
          rw [hNe] at hyN
          exact absurd hyN (Finset.not_mem_empty _)
        · have hnN : noEdge.toId ∈ getSubtree g noEdge.toId node.id :=
            getSubtree_self_mem g _ _ hnid
          have hnY : noEdge.toId ∈ getSubtree g yesEdge.toId node.id := by
            by_contra hcon
            exact hnT (Finset.mem_sdiff.mpr ⟨hnN, hcon⟩)
          refine ⟨⟨hyN, hnY⟩, Finset.Subset.antisymm ?_ ?_⟩
          · exact getSubtree_trans_subset g _ _ _ hyN
          · exact getSubtree_trans_subset g _ _ _ hnY

/-- A step whose yes root is already correct changes nothing. -/
theorem enforceStep_correct_apply (g : FlowGraph) (dir : LayoutDirection)
    (node : FlowNode) (p : PosMap) (yesEdge noEdge : FlowEdge)
    (hty : node.type = "condition")
    (hyes : (g.edges.filter (fun e => e.fromId = node.id)).find?
      (fun e => lowerOpt e.label = some "yes") = some yesEdge)
    (hno : (g.edges.filter (fun e => e.fromId = node.id)).find?
      (fun e => lowerOpt e.label = some "no") = some noEdge)
    (hcorr : yesIsCorrect dir (p yesEdge.toId) (p noEdge.toId) = true) :
    enforceStep g dir node p = p := by
  simp [enforceStep, hty, hyes, hno, hcorr]

/-- One normalization step is idempotent (pointwise). -/
theorem enforceStep_idem (g : FlowGraph) (dir : LayoutDirection)
    (node : FlowNode) (p : PosMap) (i : String) :
    enforceStep g dir node (enforceStep g dir node p) i
      = enforceStep g dir node p i := by
  by_cases hty : node.type = "condition"
  case neg => simp [enforceStep, hty]
  cases hyes : (g.edges.filter (fun e => e.fromId = node.id)).find?
      (fun e => lowerOpt e.label = some "yes") with
  | none => simp [enforceStep, hty, hyes]
  | some yesEdge =>
    cases hno : (g.edges.filter (fun e => e.fromId = node.id)).find?
        (fun e => lowerOpt e.label = some "no") with
    | none => simp [enforceStep, hty, hyes, hno]
    | some noEdge =>
      by_cases hcorr : yesIsCorrect dir (p yesEdge.toId) (p noEdge.toId) = true
      · have hp := enforceStep_correct_apply g dir node p yesEdge noEdge
          hty hyes hno hcorr
        simp only [hp]
      · have hcorrF : yesIsCorrect dir (p yesEdge.toId) (p noEdge.toId) = false := by
          simpa using hcorr
        rcases enforceStep_correct_or_frozen g dir node p yesEdge noEdge
            hty hyes hno hcorrF with hcorr2 | ⟨hmut, hYN⟩
        · rw [enforceStep_correct_apply g dir node (enforceStep g dir node p)
            yesEdge noEdge hty hyes hno hcorr2]
        · by_cases hcorr2 : yesIsCorrect dir
              (enforceStep g dir node p yesEdge.toId)
              (enforceStep g dir node p noEdge.toId) = true
          · rw [enforceStep_correct_apply g dir node (enforceStep g dir node p)
              yesEdge noEdge hty hyes hno hcorr2]
          · have hcorr2F : yesIsCorrect dir
                (enforceStep g dir node p yesEdge.toId)
                (enforceStep g dir node p noEdge.toId) = false := by
              simpa using hcorr2
            rw [enforceStep_wrong_apply g dir node (enforceStep g dir node p)
              yesEdge noEdge hty hyes hno hcorr2F i, hYN]
            simp [Finset.sdiff_self]

/-- Folding the step over nodes that are not conditions is the identity. -/
theorem foldl_enforceStep_no_condition (g : FlowGraph) (dir : LayoutDirection)
    (l : List FlowNode) (p : PosMap)
    (h : ∀ n ∈ l, n.type ≠ "condition") :
    l.foldl (fun q n => enforceStep g dir n q) p = p := by
  induction l generalizing p with
  | nil => rfl
  | cons m rest ih =>
    rw [List.foldl_cons,
      enforceStep_nonCondition g dir m p (h m (List.mem_cons_self m rest))]
    exact ih p (fun n hn => h n (List.mem_cons_of_mem m hn))

/-- When the node list holds exactly one condition node, the whole pass
is that node's step. -/
theorem foldl_enforceStep_unique (g : FlowGraph) (dir : LayoutDirection)
    (l : List FlowNode) (node : FlowNode) (p : PosMap)
    (h : l.filter (fun n => n.type = "condition") = [node]) :
    l.foldl (fun q n => enforceStep g dir n q) p = enforceStep g dir node p := by
  induction l generalizing p with
  | nil => simp at h
  | cons m rest ih =>
    by_cases hm : m.type = "condition"
    · simp only [List.filter_cons, hm, decide_eq_true_eq, if_pos] at h
      rw [List.cons.injEq] at h
      obtain ⟨rfl, hrest0⟩ := h
      rw [List.foldl_cons]
      have hrest : ∀ n ∈ rest, n.type ≠ "condition" := by
        intro n hn hc
        have hmem : n ∈ rest.filter (fun n2 => n2.type = "condition") :=
          List.mem_filter.mpr ⟨hn, by simp [hc]⟩
        rw [hrest0] at hmem
        simp at hmem
      exact foldl_enforceStep_no_condition g dir rest _ hrest
    · rw [List.foldl_cons, enforceStep_nonCondition g dir m p hm]
      apply ih
      rw [List.filter_cons] at h
      simpa [hm] using h

/-- **C4 counterexample.**  In `twoCondGraph` under TB orientation the
second condition node's translation drags node a (the first condition
node's yes root, reachable through q→a) back to the wrong side, so a
second normalization pass moves a again: one pass puts a at x = −95,
two passes put it at x = 0. -/
theorem enforce_not_idempotent_cex :
    enforceYesOnRight twoCondGraph LayoutDirection.TB twoCondPos "a" = ⟨-95, 0⟩ ∧
    enforceYesOnRight twoCondGraph LayoutDirection.TB
        (enforceYesOnRight twoCondGraph LayoutDirection.TB twoCondPos) "a" = ⟨0, 0⟩ ∧
    enforceYesOnRight twoCondGraph LayoutDirection.TB
        (enforceYesOnRight twoCondGraph LayoutDirection.TB twoCondPos) "a"
      ≠ enforceYesOnRight twoCondGraph LayoutDirection.TB twoCondPos "a" := by
  refine ⟨?_, ?_, ?_⟩ <;>
    simp [enforceYesOnRight, twoCondGraph, enforceStep, getSubtree, getSubtreeAux,
      twoCondPos, yesIsCorrect, axisVal, setAxis, lowerOpt, lowerStr]

/-- **C4 (amended).** Branch-side normalization is idempotent for every
graph with at most one condition node, in both orientations and from any
starting position map; with two or more condition nodes one node's
translation can drag another's branch root back to the wrong side and a
second pass moves it again. -/
theorem enforce_idempotent_single_condition (g : FlowGraph)
    (dir : LayoutDirection) (p : PosMap)
    (h : (g.nodes.filter (fun n => n.type = "condition")).length ≤ 1)
    (i : String) :
    enforceYesOnRight g dir (enforceYesOnRight g dir p) i
      = enforceYesOnRight g dir p i := by
  cases hf : g.nodes.filter (fun n => n.type = "condition") with
  | nil =>
    have hnone : ∀ n ∈ g.nodes, n.type ≠ "condition" := by
      intro n hn hc
      have hmem : n ∈ g.nodes.filter (fun n2 => n2.type = "condition") :=
        List.mem_filter.mpr ⟨hn, by simp [hc]⟩
      rw [hf] at hmem
      simp at hmem
    unfold enforceYesOnRight
    rw [foldl_enforceStep_no_condition g dir g.nodes _ hnone,
      foldl_enforceStep_no_condition g dir g.nodes p hnone]
  | cons node rest =>
    have hrest : rest = [] := by
      rw [hf, List.length_cons] at h
      have h0 : rest.length = 0 := by omega
      exact List.length_eq_zero.mp h0
    subst hrest
    unfold enforceYesOnRight
    rw [foldl_enforceStep_unique g dir g.nodes node _ hf,
      foldl_enforceStep_unique g dir g.nodes node p hf]
    exact enforceStep_idem g dir node p i

/-- **C4 witness.**  `oneCondGraph` has one condition node, and with the
yes branch initially on the wrong side a second pass changes nothing. -/
theorem enforce_idempotent_single_condition_witness :
    (oneCondGraph.nodes.filter (fun n => n.type = "condition")).length ≤ 1 ∧
    enforceYesOnRight oneCondGraph LayoutDirection.TB
        (enforceYesOnRight oneCondGraph LayoutDirection.TB oneCondPosWrong) "a"
      = enforceYesOnRight oneCondGraph LayoutDirection.TB oneCondPosWrong "a" :=
  ⟨by decide,
    enforce_idempotent_single_condition oneCondGraph LayoutDirection.TB
      oneCondPosWrong (by decide) "a"⟩

/-- **C5 counterexample.**  With both branch roots at the same x the
check `yesRoot.x >= noRoot.x` already passes, normalization changes
nothing, and the yes root does not end up with strictly larger x than
the no root — the guaranteed side relation is weak, not strict. -/
theorem enforce_strict_side_cex :
    enforceYesOnRight oneCondGraph LayoutDirection.TB posZero "a" = ⟨0, 0⟩ ∧
    enforceYesOnRight oneCondGraph LayoutDirection.TB posZero "b" = ⟨0, 0⟩ ∧
    ¬ ((enforceYesOnRight oneCondGraph LayoutDirection.TB posZero "b").x
        < (enforceYesOnRight oneCondGraph LayoutDirection.TB posZero "a").x) := by
  refine ⟨?_, ?_, ?_⟩ <;>
    simp [enforceYesOnRight, oneCondGraph, enforceStep, getSubtree, getSubtreeAux,
      posZero, yesIsCorrect, axisVal, setAxis, lowerOpt, lowerStr]

/-- **C5 (amended).** For a graph whose only condition node is `node`,
whose yes- and no-labeled outgoing edges are found and whose two branch
targets are not mutually reachable around the condition node, the
normalized yes subtree root lies weakly on the preferred side of the no
subtree root: x at least the no root's in TB orientation, y at most the
no root's in LR orientation. -/
theorem enforce_yes_side_single_condition (g : FlowGraph)
    (dir : LayoutDirection) (p : PosMap) (node : FlowNode)
    (yesEdge noEdge : FlowEdge)
    (hf : g.nodes.filter (fun n => n.type = "condition") = [node])
    (hyes : (g.edges.filter (fun e => e.fromId = node.id)).find?
      (fun e => lowerOpt e.label = some "yes") = some yesEdge)
    (hno : (g.edges.filter (fun e => e.fromId = node.id)).find?
      (fun e => lowerOpt e.label = some "no") = some noEdge)
    (hmut : ¬ (yesEdge.toId ∈ getSubtree g noEdge.toId node.id ∧
               noEdge.toId ∈ getSubtree g yesEdge.toId node.id)) :
    (dir = LayoutDirection.TB →
      (enforceYesOnRight g dir p noEdge.toId).x ≤
        (enforceYesOnRight g dir p yesEdge.toId).x) ∧
    (dir = LayoutDirection.LR →
      (enforceYesOnRight g dir p yesEdge.toId).y ≤
        (enforceYesOnRight g dir p noEdge.toId).y) := by
  have hty : node.type = "condition" := by
    have hmem : node ∈ g.nodes.filter (fun n => n.type = "condition") := by
      rw [hf]
      exact List.mem_cons_self node []
    exact of_decide_eq_true (List.mem_filter.mp hmem).2
  have hpass : enforceYesOnRight g dir p = enforceStep g dir node p :=
    foldl_enforceStep_unique g dir g.nodes node p hf
  have hcorrect : yesIsCorrect dir (enforceYesOnRight g dir p yesEdge.toId)
      (enforceYesOnRight g dir p noEdge.toId) = true := by
    rw [hpass]
    by_cases hcorr : yesIsCorrect dir (p yesEdge.toId) (p noEdge.toId) = true
    · rw [enforceStep_correct_apply g dir node p yesEdge noEdge hty hyes hno hcorr]
      exact hcorr
    · have hcorrF : yesIsCorrect dir (p yesEdge.toId) (p noEdge.toId) = false := by
        simpa using hcorr
      rcases enforceStep_correct_or_frozen g dir node p yesEdge noEdge
          hty hyes hno hcorrF with h2 | ⟨hm, _⟩
      · exact h2
      · exact absurd hm hmut
  constructor <;> intro hdir <;> subst hdir <;>
    simpa [yesIsCorrect] using hcorrect

/-- **C5 witness.** -/
theorem enforce_yes_side_single_condition_witness :
    (enforceYesOnRight oneCondGraph LayoutDirection.TB oneCondPosWrong "b").x ≤
      (enforceYesOnRight oneCondGraph LayoutDirection.TB oneCondPosWrong "a").x :=
  (enforce_yes_side_single_condition oneCondGraph LayoutDirection.TB
      oneCondPosWrong ⟨"c", "check", "condition"⟩
      ⟨"c", "a", some "yes"⟩ ⟨"c", "b", some "no"⟩
      (by decide) (by decide) (by decide)
      (fun hcon => absurd hcon.1
        (by simp [getSubtree, getSubtreeAux, oneCondGraph]))).1 rfl

/-- **C6.**  Convergence safety: a node lying in both branch subtrees
of a condition node (reachable from both branch targets without passing
through the condition node, as computed by `getSubtree`) is excluded
from both moved sets, so its position survives that node's
normalization step unchanged whichever branch is translated — and when
that condition node is the graph's only one, the whole normalization
pass leaves the shared node's position unchanged. -/
theorem enforce_convergence_safety (g : FlowGraph) (dir : LayoutDirection)
    (node : FlowNode) (p : PosMap) (shared : String)
    (yesEdge noEdge : FlowEdge)
    (hyes : (g.edges.filter (fun e => e.fromId = node.id)).find?
      (fun e => lowerOpt e.label = some "yes") = some yesEdge)
    (hno : (g.edges.filter (fun e => e.fromId = node.id)).find?
      (fun e => lowerOpt e.label = some "no") = some noEdge)
    (hsy : shared ∈ getSubtree g yesEdge.toId node.id)
    (hsn : shared ∈ getSubtree g noEdge.toId node.id) :
    enforceStep g dir node p shared = p shared ∧
    (g.nodes.filter (fun n => n.type = "condition") = [node] →
      enforceYesOnRight g dir p shared = p shared) := by
  have hstep : enforceStep g dir node p shared = p shared := by
    by_cases hty : node.type = "condition"
    · by_cases hcorr : yesIsCorrect dir (p yesEdge.toId) (p noEdge.toId) = true
      · rw [enforceStep_correct_apply g dir node p yesEdge noEdge hty hyes hno hcorr]
      · have hcorrF : yesIsCorrect dir (p yesEdge.toId) (p noEdge.toId) = false := by
          simpa using hcorr
        rw [enforceStep_wrong_apply g dir node p yesEdge noEdge hty hyes hno
          hcorrF shared]
        rw [if_neg (fun hmem => (Finset.mem_sdiff.mp hmem).2 hsn),
          if_neg (fun hmem => (Finset.mem_sdiff.mp hmem).2 hsy)]
    · rw [enforceStep_nonCondition g dir node p hty]
  refine ⟨hstep, fun hf => ?_⟩
  rw [show enforceYesOnRight g dir p = enforceStep g dir node p from
    foldl_enforceStep_unique g dir g.nodes node p hf]
  exact hstep

/-- **C6 witness.**  In `convergeGraph` both branches converge on d;
normalization swaps a and b but leaves d at (7, 3). -/
theorem enforce_convergence_safety_witness :
    enforceYesOnRight convergeGraph LayoutDirection.TB convergePos "d"
      = convergePos "d" :=
  (enforce_convergence_safety convergeGraph LayoutDirection.TB
      ⟨"c", "check", "condition"⟩ convergePos "d"
      ⟨"c", "a", some "yes"⟩ ⟨"c", "b", some "no"⟩
      (by decide) (by decide)
      (by simp [getSubtree, getSubtreeAux, convergeGraph])
      (by simp [getSubtree, getSubtreeAux, convergeGraph])).2 (by decide)

/-! ## Condition-handle map -/

/-- `handleUpd` leaves every other key alone. -/
theorem handleUpd_other (m : String → Option String) (e : FlowEdge)
    (k : String) (h : k ≠ edgeKey e) : handleUpd m e k = m k := by
  unfold handleUpd
  cases hl : lowerOpt e.label with
  | none => rfl
  | some lab =>
    by_cases hyn : lab = "yes" ∨ lab = "no"
    · simp [hyn, h]
    · simp [hyn]

/-- At its own key, an edge with a yes/no label writes that label. -/
theorem handleUpd_self_branch (m : String → Option String) (e : FlowEdge)
    (lab : String) (h : branchOf e.label = some lab) :
    handleUpd m e (edgeKey e) = some lab := by
  unfold handleUpd
  unfold branchOf at h
  cases hl : lowerOpt e.label with
  | none => rw [hl] at h; cases h
  | some lab2 =>
    rw [hl] at h
    by_cases hyn : lab2 = "yes" ∨ lab2 = "no"
    · simp only [hyn, if_pos, if_true] at h ⊢
      simp only [Option.some.injEq] at h
      simp [h]
    · simp [hyn] at h

/-- At its own key, an edge without a yes/no label writes nothing. -/
theorem handleUpd_self_nobranch (m : String → Option String) (e : FlowEdge)
    (h : branchOf e.label = none) :
    handleUpd m e (edgeKey e) = m (edgeKey e) := by
  unfold handleUpd
  unfold branchOf at h
  cases hl : lowerOpt e.label with
  | none => rfl
  | some lab2 =>
    rw [hl] at h
    by_cases hyn : lab2 = "yes" ∨ lab2 = "no"
    · simp [hyn] at h
    · simp [hyn]

/-- Folding over edges none of which carries the key leaves it alone. -/
theorem handleFold_no_key (l : List FlowEdge) (m : String → Option String)
    (k : String) (h : ∀ e ∈ l, edgeKey e ≠ k) :
    l.foldl handleUpd m k = m k := by
  induction l generalizing m with
  | nil => rfl
  | cons e rest ih =>
    rw [List.foldl_cons,
      ih (handleUpd m e) (fun e2 h2 => h e2 (List.mem_cons_of_mem e h2))]
    exact handleUpd_other m e k
      (fun hk => h e (List.mem_cons_self e rest) hk.symm)

/-- The handle fold at the key of an edge whose key is unique in the
list: a yes/no label wins, anything else falls through to the
accumulator. -/
theorem handleFold_mem (l : List FlowEdge) (m : String → Option String)
    (e : FlowEdge) (he : e ∈ l)
    (hu : ∀ e2 ∈ l, edgeKey e2 = edgeKey e → e2 = e) :
    l.foldl handleUpd m (edgeKey e) =
      (match branchOf e.label with
       | some lab => some lab
       | none => m (edgeKey e)) := by
  induction l generalizing m with
  | nil => simp at he
  | cons x rest ih =>
    rw [List.foldl_cons]
    by_cases hx : e ∈ rest
    · rw [ih (handleUpd m x) hx
        (fun e2 h2 hk => hu e2 (List.mem_cons_of_mem x h2) hk)]
      cases hb : branchOf e.label with
      | some lab => rfl
      | none =>
        by_cases hkey : edgeKey x = edgeKey e
        · have hxe : x = e := hu x (List.mem_cons_self x rest) hkey
          subst hxe
          exact handleUpd_self_nobranch m x hb
        · exact handleUpd_other m x _ (fun hh => hkey hh.symm)
    · have hex : e = x := by
        rcases List.mem_cons.mp he with h1 | h1
        · exact h1
        · exact absurd h1 hx
      subst hex
      have hnone : ∀ e2 ∈ rest, edgeKey e2 ≠ edgeKey e := by
        intro e2 h2 hk
        exact hx ((hu e2 (List.mem_cons_of_mem e h2) hk) ▸ h2)
      rw [handleFold_no_key rest (handleUpd m e) (edgeKey e) hnone]
      cases hb : branchOf e.label with
      | some lab => exact handleUpd_self_branch m e lab hb
      | none => exact handleUpd_self_nobranch m e hb

/-- **C2 counterexample.**  In `dupLabelGraph` the condition node's two
outgoing edges both carry the label "yes", and the handle map assigns
the yes side to both — there is no position-based fallback preventing
two source handles of the same side. -/
theorem handleMap_same_side_cex :
    buildConditionHandleMap dupLabelGraph (edgeKey ⟨"c", "a", some "yes"⟩)
        = some "yes" ∧
    buildConditionHandleMap dupLabelGraph (edgeKey ⟨"c", "b", some "yes"⟩)
        = some "yes" := by
  constructor <;> decide

/-- **C2 (amended).**  The branch-anchor assignment is label-only: for
every edge whose `from→to` key is unique in the graph, the handle map
at that key equals `branchOf` of the edge's label — `yes`/`no` when the
label lower-cases to "yes"/"no", and `none` (no anchor at all, rather
than a position-based fallback) otherwise.  Geometry independence is
structural: `buildConditionHandleMap` consumes no positions. -/
theorem handleMap_label_only (g : FlowGraph) (e : FlowEdge)
    (he : e ∈ g.edges)
    (hu : ∀ e2 ∈ g.edges, edgeKey e2 = edgeKey e → e2 = e) :
    buildConditionHandleMap g (edgeKey e) = branchOf e.label := by
  unfold buildConditionHandleMap
  rw [handleFold_mem g.edges (fun _ => none) e he hu]
  cases hb : branchOf e.label <;> simp [hb]

/-- **C2 witness.** -/
theorem handleMap_label_only_witness :
    buildConditionHandleMap oneCondGraph (edgeKey ⟨"c", "a", some "yes"⟩)
      = branchOf (some "yes") :=
  handleMap_label_only oneCondGraph ⟨"c", "a", some "yes"⟩ (by decide) (by decide)

/-- **C9.**  Layout terminates and drops no edge on any input graph,
cycles included: the React Flow edge list of `transformToReactFlow`
carries exactly the input edges with their sources, targets and labels
in order, the node list carries exactly the input node ids, and the
breadth-first subtree search evaluates to a finite set on the cyclic
retry graph (a→b with the backward edge b→a). -/
theorem transform_preserves_edges (g : FlowGraph) (dir : LayoutDirection)
    (rawPos : PosMap) :
    ((transformToReactFlow g dir rawPos).2.map (fun e => (e.source, e.target, e.label))
      = g.edges.map (fun e => (e.fromId, e.toId, e.label))) ∧
    ((transformToReactFlow g dir rawPos).1.map (fun n => n.id)
      = g.nodes.map (fun n => n.id)) ∧
    getSubtree cyclicGraph "a" "s" = {"a", "b", "t"} := by
  refine ⟨?_, ?_, ?_⟩
  · unfold transformToReactFlow
    simp only [List.map_map]
    have hcomp : ((fun e : RFEdge => (e.source, e.target, e.label)) ∘
        (fun p : Nat × FlowEdge =>
          ({ id := "e" ++ toString p.1, source := p.2.fromId, target := p.2.toId,
             label := p.2.label,
             sourceHandle :=
               if (g.nodes.find? (fun n => n.id = p.2.fromId)).map
                   (fun n => n.type) = some "condition" then
                 buildConditionHandleMap g (edgeKey p.2)
               else none } : RFEdge))) =
        (fun e : FlowEdge => (e.fromId, e.toId, e.label)) ∘ Prod.snd := rfl
    rw [hcomp, ← List.map_map, List.enum_map_snd]
  · unfold transformToReactFlow
    simp [List.map_map, Function.comp]
  · simp [getSubtree, getSubtreeAux, cyclicGraph]
    decide
